import Mathlib

/-!
Shallow embedding of the SparcExpenseTracker transaction/split core.

Conventions of the embedding:
* JS `number` amounts are embedded as `ℚ` (the code performs only ring
  operations and order comparisons on amounts).
* A split's `date` is stored in the app as a `YYYY-MM-DD` string and always
  consumed through `Date.parse`, which maps a valid date-only string to the
  UTC-midnight timestamp of that calendar day; since that map is strictly
  monotone and injective, the embedding stores `date : Int` as the UTC
  epoch-day number of the string.
* `transactionId` is a string; the app mints decimal timestamp strings
  (`Date.now().toString()`).  A missing `transactionId` in legacy data is
  embedded as `""` (all source checks on the field are JS-truthiness checks,
  and `""` is falsy exactly like `undefined`).
* `notes` is optional in the stored record, embedded as `Option String`.
* Fallible UI operations are embedded as functions returning the new state
  paired with a success flag, mirroring the source's throw-before-mutate or
  guard-before-mutate structure.
-/

/-- A stored expense record ("split"), from `types.ts` (`interface Expense`). -/
structure Expense where
  id : String
  transactionId : String
  amount : ℚ
  vendor : String
  category : String
  date : Int
  notes : Option String
deriving DecidableEq, Repr

/-- One split of a user-declared transaction as submitted by the form:
an amount and a category (`AddExpense.tsx`, `finalSplits`). -/
structure SplitInput where
  amount : ℚ
  category : String
deriving DecidableEq, Repr

/-- A category definition, from `types.ts` (`interface CategoryDefinition`). -/
structure CategoryDefinition where
  name : String
  color : String
  isDefault : Bool
deriving DecidableEq, Repr

/-- A legacy custom category, from `types.ts` (`interface CustomCategory`). -/
structure CustomCategory where
  name : String
  color : String
deriving DecidableEq, Repr

/-- Model of JS `String.prototype.trim()` on the character list: strip
leading and trailing whitespace.  (The library's `String.trim` recurses on
byte positions and does not reduce inside the kernel, so concrete instances
could not be evaluated with it.) -/
def jsTrim (s : String) : String :=
  ⟨((s.data.dropWhile Char.isWhitespace).reverse.dropWhile Char.isWhitespace).reverse⟩

/-- Model of JS `String.prototype.toLowerCase()` on the character list
(adequate for the ASCII category and vendor names at play). -/
def jsLower (s : String) : String :=
  ⟨s.data.map Char.toLower⟩

/-- Sum of the amounts allocated to the splits, from `AddExpense.tsx`
line 111: `splits.reduce((sum, s) => sum + (parseFloat(s.amount) || 0), 0)`.
The embedding receives amounts already as numbers, so the `parseFloat`
coercion (with `|| 0` for `NaN`) is the identity. -/
def splitSum (splits : List SplitInput) : ℚ :=
  splits.foldl (fun sum s => sum + s.amount) 0

/-- The transaction validator, from the `useMemo` in `AddExpense.tsx`
lines 109-123.  Returns `(remainingAmount, isValid)`.  `parseFloat(totalAmount)
|| 0` and `parseFloat(s.amount)` are received as numbers; the truthiness check
`s.category` is `s.category ≠ ""`. -/
def validateResult (totalAmount : ℚ) (vendor : String) (splits : List SplitInput) :
    ℚ × Bool :=
  let parsedTotal := totalAmount
  let allocated := splitSum splits
  let remaining := parsedTotal - allocated
  let allSplitsValid := splits.all (fun s => decide (0 < s.amount) && decide (s.category ≠ ""))
  let isAmountCorrect := decide (|remaining| < 1 / 100)
  (remaining,
    decide (0 < parsedTotal) && decide (jsTrim vendor ≠ "") && allSplitsValid && isAmountCorrect)

/-- C1: the validator accepts iff the declared total is positive, the vendor is
non-empty after trimming, every split has a positive amount and a non-empty
category, and the remaining amount is below the 0.01 tolerance in absolute
value; and the returned remaining amount is `declaredTotal - sum(splits)`
whether or not the input is valid. -/
theorem validateResult_spec (t : ℚ) (vendor : String) (splits : List SplitInput) :
    (validateResult t vendor splits).1 = t - splitSum splits ∧
    ((validateResult t vendor splits).2 = true ↔
      0 < t ∧ jsTrim vendor ≠ "" ∧ (∀ s ∈ splits, 0 < s.amount ∧ s.category ≠ "") ∧
        |t - splitSum splits| < 1 / 100) := by
  refine ⟨rfl, ?_⟩
  simp only [validateResult, Bool.and_eq_true, decide_eq_true_eq, List.all_eq_true]
  constructor
  · rintro ⟨⟨⟨ht, hv⟩, hs⟩, hr⟩
    exact ⟨ht, hv, fun s hs' => by simpa using hs s hs', hr⟩
  · rintro ⟨ht, hv, hs, hr⟩
    exact ⟨⟨⟨ht, hv⟩, fun s hs' => by simpa using hs s hs'⟩, hr⟩

/-- Numeric value of a transaction id, modelling `parseInt(tid, 10)` on the
decimal timestamp strings the app mints: the value of the longest decimal-digit
prefix.  A string with no digit prefix (where `parseInt` yields `NaN`, which
never arises for app-minted ids) is mapped to `0`. -/
def tidNum (s : String) : Nat :=
  (s.toList.takeWhile Char.isDigit).foldl (fun n c => 10 * n + (c.toNat - 48)) 0

/-- The sort comparator of `sortExpenses` (`App.tsx`), as a boolean "a may come
before b" relation: the comparator `(a, b) ↦ (dateOf b - dateOf a, ties by
tidNum b - tidNum a)` is non-positive iff `b`'s key is lexicographically at most
`a`'s, i.e. date descending, then transaction id (as a number) descending. -/
def expLE (a b : Expense) : Bool :=
  decide (b.date < a.date) || (decide (b.date = a.date) && decide (tidNum b.transactionId ≤ tidNum a.transactionId))

/-- `sortExpenses` from `App.tsx` lines 372-378: sort the whole collection by
date descending, ties broken by `parseInt(transactionId, 10)` descending.
`Array.prototype.sort` with a consistent comparator is embedded as a stable
merge sort by the comparator's "may come before" relation. -/
def sortExpenses (expenses : List Expense) : List Expense :=
  expenses.mergeSort expLE

/-- Build the fresh `Expense` records of one transaction from its submitted
splits, as in `addTransaction` / `updateTransaction` (`App.tsx` lines 441-451
and 476-484): each split gets a fresh id `tid ++ "-" ++ <random suffix>`
(the random suffix supplied per position by `freshIds`), the shared
`transactionId`, `vendor`, `date`, `notes`, and its own amount and category. -/
def mkSplits (tid vendor : String) (date : Int) (notes : Option String)
    (freshIds : Nat → String) (splits : List SplitInput) : List Expense :=
  splits.enum.map (fun p =>
    { id := tid ++ "-" ++ freshIds p.1
      transactionId := tid
      amount := p.2.amount
      vendor := vendor
      category := p.2.category
      date := date
      notes := notes })

/-- `addTransaction` from `App.tsx` lines 441-457: mint the splits of the new
transaction (the minted `Date.now().toString()` id is the `newTid` parameter)
and set the ledger to `sortExpenses([...newExpenses, ...prevExpenses])`. -/
def addTransaction (prev : List Expense) (newTid vendor : String) (date : Int)
    (notes : Option String) (freshIds : Nat → String) (splits : List SplitInput) :
    List Expense :=
  sortExpenses (mkSplits newTid vendor date notes freshIds splits ++ prev)

/-- `deleteTransaction` from `App.tsx` lines 459-461: drop every split whose
`transactionId` equals the given one. -/
def deleteTransaction (prev : List Expense) (tid : String) : List Expense :=
  prev.filter (fun e => e.transactionId ≠ tid)

/-- `updateTransaction` from `App.tsx` lines 472-496: build fresh splits
carrying the same `transactionId`, then atomically set the ledger to
`sortExpenses([...prev.filter(e => e.transactionId !== transactionId),
...updatedExpenses])`. -/
def updateTransaction (prev : List Expense) (tid vendor : String) (date : Int)
    (notes : Option String) (freshIds : Nat → String) (splits : List SplitInput) :
    List Expense :=
  sortExpenses (prev.filter (fun e => e.transactionId ≠ tid)
    ++ mkSplits tid vendor date notes freshIds splits)

/-- The form state consumed by `handleSubmit` (`AddExpense.tsx` lines 126-149):
the declared total and splits already number-parsed, the raw vendor and notes
strings, and the chosen date. -/
structure FormState where
  totalAmount : ℚ
  vendor : String
  date : Int
  notes : String
  splits : List SplitInput
deriving Repr

/-- `handleSubmit` in edit mode (`AddExpense.tsx` lines 126-149): if the
validator rejects, nothing happens (`if (!isValid) return`); otherwise
`onUpdateTransaction` runs `updateTransaction` with the edited transaction's
id, the trimmed vendor and notes, and the submitted splits. -/
def handleSubmitEdit (ledger : List Expense) (tid : String) (form : FormState)
    (freshIds : Nat → String) : List Expense :=
  if (validateResult form.totalAmount form.vendor form.splits).2 then
    updateTransaction ledger tid (jsTrim form.vendor) form.date
      (some (jsTrim form.notes)) freshIds form.splits
  else
    ledger

/-- The in-place category cascade used by both `CategoryManager.handleSave`
(rename: `expenses.map(exp => exp.category === editingCatName ? { ...exp,
category: trimmedName } : exp)`) and `CategoryManager.handleDelete`
(`expenses.map(exp => exp.category === name ? { ...exp, category: 'Other' }
: exp)`): rewrite the category of every exactly-matching split. -/
def reassignCategory (oldName newName : String) (expenses : List Expense) :
    List Expense :=
  expenses.map (fun e => if e.category = oldName then { e with category := newName } else e)

/-- `validateName` from `CategoryManager.tsx` lines 52-64: `none` when the
name passes, `some message` otherwise.  A candidate duplicates when some
existing name equals it case-insensitively and is not the entry being renamed
(`catName.toLowerCase() !== originalName?.toLowerCase()`; with no
`originalName` the optional chain yields `undefined`, which never equals a
string). -/
def validateName (allCategoryNames : List String) (name : String)
    (originalName : Option String) : Option String :=
  let trimmedName := jsTrim name
  if trimmedName = "" then some "Category name cannot be empty."
  else if allCategoryNames.any (fun catName =>
      decide (jsLower catName = jsLower trimmedName) &&
      decide (some (jsLower catName) ≠ originalName.map jsLower)) then
    some "This category name already exists."
  else none

/-- `handleSave` of `CategoryManager.tsx` (lines 66-90) in rename mode
(`editingCatName` set): on a validation error nothing changes (`none`);
otherwise the expense cascade runs only when the name changed
case-insensitively, and the registry entry with the old name gets the trimmed
new name and the chosen color. -/
def handleSaveRename (categories : List CategoryDefinition) (expenses : List Expense)
    (editingCatName formName formColor : String) :
    Option (List CategoryDefinition × List Expense) :=
  match validateName (categories.map (fun c => c.name)) formName (some editingCatName) with
  | some _ => none
  | none =>
    let trimmedName := jsTrim formName
    let newExpenses :=
      if jsLower editingCatName ≠ jsLower trimmedName then
        reassignCategory editingCatName trimmedName expenses
      else expenses
    let newCategories := categories.map (fun cat =>
      if cat.name = editingCatName then { cat with name := trimmedName, color := formColor }
      else cat)
    some (newCategories, newExpenses)

/-- Deleting a category: the delete control exists only for a non-default,
non-"Other" entry (`renderCategoryItem`, `CategoryManager.tsx` lines 135-137);
a protected entry is refused with no mutation.  Otherwise `handleDelete`
(lines 92-99, confirmed path) reassigns every exactly-matching split to
"Other" and filters the entry out of the registry. -/
def deleteCategory (categories : List CategoryDefinition) (expenses : List Expense)
    (cat : CategoryDefinition) :
    (List CategoryDefinition × List Expense) × Bool :=
  if cat.isDefault || cat.name = "Other" then ((categories, expenses), false)
  else
    ((categories.filter (fun c => c.name ≠ cat.name),
      reassignCategory cat.name "Other" expenses), true)

/-- The legacy-schema upgrade of one split, from the restore path
(`Settings.handleFileSelect`: `{ ...exp, transactionId: exp.transactionId ||
exp.id }`) and the startup migration (`App.tsx` `useEffect`:
`e.transactionId ? e : { ...e, transactionId: e.id }`): a split lacking a
`transactionId` (embedded as `""`) gets its own `id` as transaction id. -/
def migrateSplit (e : Expense) : Expense :=
  if e.transactionId = "" then { e with transactionId := e.id } else e

/-- The legacy-schema upgrade step over the whole split list. -/
def legacyUpgrade (expenses : List Expense) : List Expense :=
  expenses.map migrateSplit

/-- The built-in category names, from `constants.ts` (`CATEGORIES`). -/
def builtinCategoryNames : List String :=
  ["Food", "Transport", "Shopping", "Utilities", "Entertainment", "Health", "Other"]

/-- The built-in category colors, from `constants.ts` (`CATEGORY_COLORS`). -/
def builtinCategoryColor (name : String) : String :=
  if name = "Food" then "#34D399"
  else if name = "Transport" then "#60A5FA"
  else if name = "Shopping" then "#F472B6"
  else if name = "Utilities" then "#FBBF24"
  else if name = "Entertainment" then "#A78BFA"
  else if name = "Health" then "#F87171"
  else "#9CA3AF"

/-- The currency object of the backup document and of the app state, from
`types.ts` (`interface Currency`); `code` is `Option` so that a document with
the field missing is representable (`parsedData.currency?.code`). -/
structure DocCurrency where
  code : Option String
  name : String
  symbol : String
deriving DecidableEq, Repr

/-- A parsed backup document (`JSON.parse` result in
`Settings.handleFileSelect`).  `expenses = none` embeds a document whose
`expenses` field is absent or not an array (`!Array.isArray`); the other
`Option` fields embed JS-absent fields. -/
structure ParsedDoc where
  version : Option Int
  expenses : Option (List Expense)
  currency : Option DocCurrency
  categories : Option (List CategoryDefinition)
  customCategories : Option (List CustomCategory)
deriving Repr

/-- The persisted application state the restore path touches: ledger,
category registry and currency selection. -/
structure AppState where
  expenses : List Expense
  categories : List CategoryDefinition
  currency : DocCurrency
deriving Repr

/-- `handleFileSelect` of `Settings` (lines 359-413), confirmed path: the
format check `!parsedData || !Array.isArray(parsedData.expenses) ||
!parsedData.currency?.code` throws before any state is written; on success the
expense list (legacy-upgraded when `version` is absent or below 3) and the
currency are installed, and the registry is replaced by `document.categories`
when present, else merged from a legacy `customCategories` list when present,
else kept. -/
def restoreData (s : AppState) (doc : ParsedDoc) : AppState × Bool :=
  match doc.expenses, doc.currency with
  | some expensesToRestore, some currency =>
    match currency.code with
    | none => (s, false)
    | some code =>
      if code = "" then (s, false)
      else
        let migrated :=
          if doc.version.elim true (fun v => v < 3) then legacyUpgrade expensesToRestore
          else expensesToRestore
        let newCategories :=
          match doc.categories with
          | some cats => cats
          | none =>
            match doc.customCategories with
            | some customCats =>
              let defaults := builtinCategoryNames.map (fun n =>
                { name := n, color := builtinCategoryColor n, isDefault := true })
              let defaultNames := defaults.map CategoryDefinition.name
              defaults ++ (customCats.filter (fun c => ¬ defaultNames.contains c.name)).map
                (fun c => { name := c.name, color := c.color, isDefault := false })
            | none => s.categories
        ({ expenses := migrated, categories := newCategories, currency := currency }, true)
  | _, _ => (s, false)

/-- The today-spend aggregation of the `Dashboard` `useMemo` (lines 256-311):
walking the ledger, an expense contributes to `todaySpend` exactly when
`expenseTimeUTC >= startOfTodayUTC` (there is no upper bound in the source);
`todayStart` is the epoch day of the reference instant `now`. -/
def todaySpendCode (expenses : List Expense) (todayStart : Int) : ℚ :=
  expenses.foldl (fun acc e => if todayStart ≤ e.date then acc + e.amount else acc) 0

/-- Modelled from the spec: `todaySpend(ledger, now)` is the "sum of amounts
for splits whose date falls on the same UTC calendar day as `now`"
(spec section 4.4); `todayStart` is the epoch day of `now`, and a date-only
split falls on that day exactly when its epoch day equals it. -/
def todaySpendSpec (expenses : List Expense) (todayStart : Int) : ℚ :=
  ((expenses.filter (fun e => e.date = todayStart)).map Expense.amount).sum

/-- The sort comparator is transitive (needed for `mergeSort` to sort). -/
theorem expLE_trans (a b c : Expense) (h₁ : expLE a b) (h₂ : expLE b c) : expLE a c := by
  simp only [expLE, Bool.or_eq_true, Bool.and_eq_true, decide_eq_true_eq] at h₁ h₂ ⊢
  rcases h₁ with h₁ | ⟨h₁, h₁n⟩ <;> rcases h₂ with h₂ | ⟨h₂, h₂n⟩
  · exact Or.inl (h₂.trans h₁)
  · exact Or.inl (h₂ ▸ h₁)
  · exact Or.inl (h₁ ▸ h₂)
  · exact Or.inr ⟨h₂.trans h₁, h₂n.trans h₁n⟩

/-- The sort comparator is total (needed for `mergeSort` to sort). -/
theorem expLE_total (a b : Expense) : expLE a b || expLE b a := by
  simp only [expLE, Bool.or_eq_true, Bool.and_eq_true, decide_eq_true_eq]
  omega

/-- The ledger order invariant of the spec: date descending, ties broken by
the transaction id read as a number, descending. -/
def SortedLedger (l : List Expense) : Prop :=
  l.Pairwise (fun a b => expLE a b = true)

/-- `sortExpenses` always yields such an ordered ledger. -/
theorem sortExpenses_sorted (l : List Expense) : SortedLedger (sortExpenses l) :=
  List.sorted_mergeSort expLE_trans expLE_total l

/-- `sortExpenses` permutes the collection. -/
theorem sortExpenses_perm (l : List Expense) : List.Perm (sortExpenses l) l :=
  List.mergeSort_perm l expLE

/-- Every split built by `mkSplits` carries the shared transaction id, vendor,
date and notes of the transaction. -/
theorem mkSplits_fields {tid vendor : String} {date : Int} {notes : Option String}
    {freshIds : Nat → String} {splits : List SplitInput} {e : Expense}
    (h : e ∈ mkSplits tid vendor date notes freshIds splits) :
    e.transactionId = tid ∧ e.vendor = vendor ∧ e.date = date ∧ e.notes = notes := by
  simp only [mkSplits, List.mem_map] at h
  obtain ⟨p, -, rfl⟩ := h
  exact ⟨rfl, rfl, rfl, rfl⟩

/-- The transaction invariant of the spec, section 3: all splits sharing a
`transactionId` carry identical `vendor`, `date` and `notes`. -/
def TxConsistent (l : List Expense) : Prop :=
  ∀ e₁ ∈ l, ∀ e₂ ∈ l, e₁.transactionId = e₂.transactionId →
    e₁.vendor = e₂.vendor ∧ e₁.date = e₂.date ∧ e₁.notes = e₂.notes

/-- The transaction invariant only sees membership, so any permutation
preserves it. -/
theorem txConsistent_perm {l l' : List Expense} (h : List.Perm l l') (hc : TxConsistent l) :
    TxConsistent l' := fun e₁ h₁ e₂ h₂ =>
  hc e₁ (h.symm.subset h₁) e₂ (h.symm.subset h₂)

/-- C2: submitting an edit with an invalid input leaves the ledger completely
untouched; submitting a valid edit sets the ledger, in one state update, to
exactly the sorted result of deleting every split of the transaction and
inserting the freshly built splits, which all carry the same `transactionId`:
the result holds exactly the new splits under that id and, as a multiset, the
untouched splits of every other transaction. -/
theorem handleSubmitEdit_atomic_replace (ledger : List Expense) (tid : String)
    (form : FormState) (freshIds : Nat → String) :
    ((validateResult form.totalAmount form.vendor form.splits).2 = false →
      handleSubmitEdit ledger tid form freshIds = ledger) ∧
    ((validateResult form.totalAmount form.vendor form.splits).2 = true →
      handleSubmitEdit ledger tid form freshIds =
        sortExpenses (deleteTransaction ledger tid ++
          mkSplits tid (jsTrim form.vendor) form.date (some (jsTrim form.notes)) freshIds form.splits) ∧
      (∀ e ∈ mkSplits tid (jsTrim form.vendor) form.date (some (jsTrim form.notes)) freshIds form.splits,
        e.transactionId = tid) ∧
      List.Perm
        ((handleSubmitEdit ledger tid form freshIds).filter (fun e => e.transactionId = tid))
        (mkSplits tid (jsTrim form.vendor) form.date (some (jsTrim form.notes)) freshIds form.splits) ∧
      List.Perm
        ((handleSubmitEdit ledger tid form freshIds).filter (fun e => e.transactionId ≠ tid))
        (ledger.filter (fun e => e.transactionId ≠ tid))) := by
  constructor
  · intro h
    simp [handleSubmitEdit, h]
  · intro h
    have hdef : handleSubmitEdit ledger tid form freshIds =
        sortExpenses (deleteTransaction ledger tid ++
          mkSplits tid (jsTrim form.vendor) form.date (some (jsTrim form.notes)) freshIds form.splits) := by
      simp [handleSubmitEdit, h, updateTransaction, deleteTransaction]
    refine ⟨hdef, fun e he => (mkSplits_fields he).1, ?_, ?_⟩
    · rw [hdef]
      refine ((sortExpenses_perm _).filter _).trans ?_
      rw [List.filter_append]
      have h₁ : (deleteTransaction ledger tid).filter (fun e => e.transactionId = tid) = [] := by
        rw [List.filter_eq_nil_iff]
        intro e he
        simp only [deleteTransaction, List.mem_filter, decide_eq_true_eq] at he
        simp [he.2]
      have h₂ : (mkSplits tid (jsTrim form.vendor) form.date (some (jsTrim form.notes)) freshIds
          form.splits).filter (fun e => e.transactionId = tid) =
          mkSplits tid (jsTrim form.vendor) form.date (some (jsTrim form.notes)) freshIds form.splits := by
        rw [List.filter_eq_self]
        intro e he
        simp [(mkSplits_fields he).1]
      rw [h₁, h₂, List.nil_append]
    · rw [hdef]
      refine ((sortExpenses_perm _).filter _).trans ?_
      rw [List.filter_append]
      have h₂ : (mkSplits tid (jsTrim form.vendor) form.date (some (jsTrim form.notes)) freshIds
          form.splits).filter (fun e => e.transactionId ≠ tid) = [] := by
        rw [List.filter_eq_nil_iff]
        intro e he
        simp [(mkSplits_fields he).1]
      have h₁ : (deleteTransaction ledger tid).filter (fun e => e.transactionId ≠ tid) =
          ledger.filter (fun e => e.transactionId ≠ tid) := by
        simp only [deleteTransaction]
        rw [List.filter_eq_self]
        intro e he
        simp only [List.mem_filter] at he
        exact he.2
      rw [h₁, h₂, List.append_nil]

/-- Enumerating a list and projecting a field of the value component is the
same as projecting directly. -/
theorem enumFrom_map_amount : ∀ (i : Nat) (ss : List SplitInput),
    (ss.enumFrom i).map (fun p => p.2.amount) = ss.map SplitInput.amount := by
  intro i ss
  induction ss generalizing i with
  | nil => rfl
  | cons s t ih => simp [List.enumFrom_cons, ih]

/-- C8: the splits built for one transaction all share `vendor`, `date` and
`notes` while their amounts are exactly the submitted ones (independent of
each other); inserting a transaction under a freshly minted id (unique by the
minting contract — `Date.now()` — stated in spec sections 4.2 and 9),
replacing a transaction, deleting a transaction and the category cascade all
preserve the invariant that splits sharing a `transactionId` carry identical
`vendor`, `date` and `notes`. -/
theorem txConsistent_core_ops :
    (∀ tid v d n f ss, TxConsistent (mkSplits tid v d n f ss)) ∧
    (∀ tid v d n f ss, (mkSplits tid v d n f ss).map Expense.amount =
      ss.map SplitInput.amount) ∧
    (∀ prev tid v d n f ss, TxConsistent prev → (∀ e ∈ prev, e.transactionId ≠ tid) →
      TxConsistent (addTransaction prev tid v d n f ss)) ∧
    (∀ prev tid v d n f ss, TxConsistent prev →
      TxConsistent (updateTransaction prev tid v d n f ss)) ∧
    (∀ prev tid, TxConsistent prev → TxConsistent (deleteTransaction prev tid)) ∧
    (∀ old new prev, TxConsistent prev → TxConsistent (reassignCategory old new prev)) := by
  have hmk : ∀ (tid v : String) (d : Int) (n : Option String) f ss,
      TxConsistent (mkSplits tid v d n f ss) := by
    intro tid v d n f ss e₁ h₁ e₂ h₂ _
    obtain ⟨-, hv₁, hd₁, hn₁⟩ := mkSplits_fields h₁
    obtain ⟨-, hv₂, hd₂, hn₂⟩ := mkSplits_fields h₂
    exact ⟨hv₁.trans hv₂.symm, hd₁.trans hd₂.symm, hn₁.trans hn₂.symm⟩
  have happend : ∀ (l₁ l₂ : List Expense), TxConsistent l₁ → TxConsistent l₂ →
      (∀ e₁ ∈ l₁, ∀ e₂ ∈ l₂, e₁.transactionId ≠ e₂.transactionId) →
      TxConsistent (l₁ ++ l₂) := by
    intro l₁ l₂ hc₁ hc₂ hcross e₁ h₁ e₂ h₂ htid
    rcases List.mem_append.1 h₁ with m₁ | m₁ <;> rcases List.mem_append.1 h₂ with m₂ | m₂
    · exact hc₁ e₁ m₁ e₂ m₂ htid
    · exact absurd htid (hcross e₁ m₁ e₂ m₂)
    · exact absurd htid.symm (hcross e₂ m₂ e₁ m₁)
    · exact hc₂ e₁ m₁ e₂ m₂ htid
  have hsub : ∀ {l₁ l₂ : List Expense}, (∀ e ∈ l₁, e ∈ l₂) → TxConsistent l₂ →
      TxConsistent l₁ := by
    intro l₁ l₂ hs hc e₁ h₁ e₂ h₂ htid
    exact hc e₁ (hs e₁ h₁) e₂ (hs e₂ h₂) htid
  refine ⟨hmk, ?_, ?_, ?_, ?_, ?_⟩
  · intro tid v d n f ss
    simp only [mkSplits, List.map_map]
    exact enumFrom_map_amount 0 ss
  · intro prev tid v d n f ss hc hfresh
    refine txConsistent_perm (sortExpenses_perm _).symm ?_
    refine happend _ _ (hmk tid v d n f ss) hc ?_
    intro e₁ h₁ e₂ h₂
    rw [(mkSplits_fields h₁).1]
    exact fun hEq => hfresh e₂ h₂ hEq.symm
  · intro prev tid v d n f ss hc
    refine txConsistent_perm (sortExpenses_perm _).symm ?_
    refine happend _ _ (hsub (fun e he => (List.mem_filter.1 he).1) hc)
      (hmk tid v d n f ss) ?_
    intro e₁ h₁ e₂ h₂
    have : e₁.transactionId ≠ tid := by
      have := (List.mem_filter.1 h₁).2
      simpa using this
    rw [(mkSplits_fields h₂).1]
    exact this
  · intro prev tid hc
    exact hsub (fun e he => (List.mem_filter.1 he).1) hc
  · intro old new prev hc
    intro e₁ h₁ e₂ h₂ htid
    simp only [reassignCategory, List.mem_map] at h₁ h₂
    obtain ⟨a₁, ha₁, rfl⟩ := h₁
    obtain ⟨a₂, ha₂, rfl⟩ := h₂
    by_cases c₁ : a₁.category = old <;> by_cases c₂ : a₂.category = old <;>
      simp only [c₁, c₂, if_pos, if_neg, if_true, if_false] at htid ⊢ <;>
      exact hc a₁ ha₁ a₂ ha₂ htid

/-- C5 (amended): inserting a transaction and replacing a transaction always
re-sort the whole ledger into the date-descending, transaction-id-descending
order; deleting a transaction preserves that order; but restoring a backup
installs the document's expense list (legacy-upgraded when the version is
absent or below 3) in the document's own order, without re-sorting. -/
theorem ledger_order_ops :
    (∀ prev tid v d n f ss, SortedLedger (addTransaction prev tid v d n f ss)) ∧
    (∀ prev tid v d n f ss, SortedLedger (updateTransaction prev tid v d n f ss)) ∧
    (∀ prev tid, SortedLedger prev → SortedLedger (deleteTransaction prev tid)) ∧
    (∀ s doc out, restoreData s doc = (out, true) →
      ∃ raw, doc.expenses = some raw ∧
        (out.expenses = raw ∨ out.expenses = legacyUpgrade raw)) := by
  refine ⟨fun prev tid v d n f ss => sortExpenses_sorted _,
    fun prev tid v d n f ss => sortExpenses_sorted _,
    fun prev tid h => List.Pairwise.sublist (List.filter_sublist prev) h, ?_⟩
  intro s doc out h
  unfold restoreData at h
  split at h
  · next raw currency hexp hcur =>
    split at h
    · exact absurd (congrArg Prod.snd h) (by simp)
    · next code hcode =>
      split at h
      · exact absurd (congrArg Prod.snd h) (by simp)
      · refine ⟨raw, hexp, ?_⟩
        have hout := congrArg AppState.expenses (congrArg Prod.fst h)
        by_cases hv : doc.version.elim true (fun v => v < 3) = true
        · rw [if_pos hv] at hout
          exact Or.inr hout.symm
        · rw [if_neg hv] at hout
          exact Or.inl hout.symm
  · exact absurd (congrArg Prod.snd h) (by simp)

/-- A state to restore into, used by the concrete restore scenarios below:
an empty ledger, an empty registry and a currency selection. -/
def sampleState : AppState :=
  { expenses := []
    categories := []
    currency := { code := some "INR", name := "Indian Rupee", symbol := "Rs" } }

/-- A well-formed version-3 backup document whose expense list holds two
same-date transactions in ascending `transactionId` order: `"100"` before
`"200"`. -/
def sampleUnsortedDoc : ParsedDoc :=
  { version := some 3
    expenses := some
      [{ id := "a", transactionId := "100", amount := 5, vendor := "V",
         category := "Food", date := 0, notes := none },
       { id := "b", transactionId := "200", amount := 7, vendor := "W",
         category := "Food", date := 0, notes := none }]
    currency := some { code := some "INR", name := "Indian Rupee", symbol := "Rs" }
    categories := some []
    customCategories := none }

/-- C5 counterexample: restoring `sampleUnsortedDoc` succeeds, yet the
resulting ledger lists the `"100"` transaction before the `"200"` transaction
on the same date — the date-descending, id-descending order does not hold
after the restore operation. -/
theorem restore_not_sorted_cex :
    (restoreData sampleState sampleUnsortedDoc).2 = true ∧
    ¬ SortedLedger (restoreData sampleState sampleUnsortedDoc).1.expenses := by
  refine ⟨rfl, ?_⟩
  intro h
  have : expLE
      { id := "a", transactionId := "100", amount := 5, vendor := "V",
        category := "Food", date := 0, notes := none }
      { id := "b", transactionId := "200", amount := 7, vendor := "W",
        category := "Food", date := 0, notes := none } = true := by
    have h' := h
    rw [show (restoreData sampleState sampleUnsortedDoc).1.expenses =
      [{ id := "a", transactionId := "100", amount := 5, vendor := "V",
         category := "Food", date := 0, notes := none },
       { id := "b", transactionId := "200", amount := 7, vendor := "W",
         category := "Food", date := 0, notes := none }] from rfl] at h'
    exact List.rel_of_pairwise_cons h' (List.mem_singleton.2 rfl)
  exact absurd this (by decide)

/-- After the cascade, no split carries the reassigned-away category (the old
and new names differing). -/
theorem reassignCategory_countP_old (old new : String) (h : old ≠ new)
    (l : List Expense) :
    (reassignCategory old new l).countP (fun e => e.category = old) = 0 := by
  induction l with
  | nil => rfl
  | cons e t ih =>
    simp only [reassignCategory, List.map_cons] at ih ⊢
    by_cases hc : e.category = old
    · rw [if_pos hc, List.countP_cons_of_neg _ _ (by simpa using (Ne.symm h)), ih]
    · rw [if_neg hc, List.countP_cons_of_neg _ _ (by simpa using hc), ih]

/-- The cascade grows the target category's split count by exactly the number
of splits that carried the old category (the old and new names differing). -/
theorem reassignCategory_countP_new (old new : String) (h : old ≠ new)
    (l : List Expense) :
    (reassignCategory old new l).countP (fun e => e.category = new) =
      l.countP (fun e => e.category = new) + l.countP (fun e => e.category = old) := by
  induction l with
  | nil => rfl
  | cons e t ih =>
    simp only [reassignCategory, List.map_cons] at ih ⊢
    by_cases hc : e.category = old
    · have hne : ¬ e.category = new := fun hn => h (hc.symm.trans hn)
      rw [if_pos hc, List.countP_cons_of_pos _ _ (by simp),
        List.countP_cons_of_neg _ _ (by simpa using hne),
        List.countP_cons_of_pos _ _ (by simpa using hc), ih]
      omega
    · rw [if_neg hc, List.countP_cons, List.countP_cons, List.countP_cons, ih]
      simp [hc]
      omega

/-- C3: deleting a category is refused — with the state untouched — exactly
when the entry is a default category or the sentinel "Other"; deleting an
unprotected category removes exactly its entries from the registry, leaves
zero splits carrying it, reassigns exactly the N splits that carried it to
"Other", and keeps the number of splits. -/
theorem deleteCategory_spec (categories : List CategoryDefinition)
    (expenses : List Expense) (cat : CategoryDefinition) :
    ((deleteCategory categories expenses cat).2 = false ↔
      cat.isDefault = true ∨ cat.name = "Other") ∧
    (cat.isDefault = true ∨ cat.name = "Other" →
      deleteCategory categories expenses cat = ((categories, expenses), false)) ∧
    (¬ (cat.isDefault = true ∨ cat.name = "Other") →
      (deleteCategory categories expenses cat).1.1 =
        categories.filter (fun c => c.name ≠ cat.name) ∧
      (∀ c ∈ (deleteCategory categories expenses cat).1.1, c.name ≠ cat.name) ∧
      ((deleteCategory categories expenses cat).1.2).countP
        (fun e => e.category = cat.name) = 0 ∧
      ((deleteCategory categories expenses cat).1.2).countP
        (fun e => e.category = "Other") =
        expenses.countP (fun e => e.category = "Other") +
          expenses.countP (fun e => e.category = cat.name) ∧
      ((deleteCategory categories expenses cat).1.2).length = expenses.length) := by
  by_cases hp : cat.isDefault = true ∨ cat.name = "Other"
  · have hd : deleteCategory categories expenses cat = ((categories, expenses), false) := by
      unfold deleteCategory
      rcases hp with hp | hp <;> simp [hp]
    refine ⟨by rw [hd]; simpa using hp, fun _ => hd, fun hn => absurd hp hn⟩
  · have hd : deleteCategory categories expenses cat =
        ((categories.filter (fun c => c.name ≠ cat.name),
          reassignCategory cat.name "Other" expenses), true) := by
      unfold deleteCategory
      rw [if_neg (by simpa using hp)]
    push_neg at hp
    refine ⟨by rw [hd]; simpa using hp, fun h => absurd h (by simpa using hp), fun _ => ?_⟩
    rw [hd]
    refine ⟨rfl, ?_, ?_, ?_, by simp [reassignCategory]⟩
    · intro c hc
      simpa using (List.mem_filter.1 hc).2
    · exact reassignCategory_countP_old cat.name "Other" hp.2 expenses
    · rw [reassignCategory_countP_new cat.name "Other" hp.2 expenses]

/-- C4: a backup document whose `expenses` field is absent or not a list, or
whose `currency.code` is missing (currency absent, or its `code` field
absent), is refused before anything is written: the ledger, registry and
currency selection all stay exactly as they were, and the failure is
reported. -/
theorem restoreData_formatError (s : AppState) (doc : ParsedDoc)
    (h : doc.expenses = none ∨ doc.currency.bind DocCurrency.code = none) :
    restoreData s doc = (s, false) := by
  unfold restoreData
  rcases hexp : doc.expenses with _ | raw
  · rfl
  rcases hcur : doc.currency with _ | currency
  · rfl
  rcases h with h | h
  · rw [hexp] at h
    exact Option.noConfusion h
  · rw [hcur] at h
    simp only [Option.some_bind] at h
    dsimp only
    rw [h]

/-- A backup document with no usable `expenses` list (the field is absent or
not an array). -/
def docWithoutExpenses : ParsedDoc :=
  { version := some 3
    expenses := none
    currency := some { code := some "INR", name := "Indian Rupee", symbol := "Rs" }
    categories := none
    customCategories := none }

/-- C4 witness: restoring `docWithoutExpenses` into `sampleState` reports the
failure and returns the state unchanged. -/
theorem restoreData_formatError_witness :
    restoreData sampleState docWithoutExpenses = (sampleState, false) :=
  restoreData_formatError sampleState docWithoutExpenses (Or.inl rfl)

/-- C9: the legacy-schema upgrade step is idempotent — a second pass returns
the first pass's output unchanged — and on a list in which every split already
has a `transactionId` it alters nothing at all. -/
theorem legacyUpgrade_idempotent :
    (∀ expenses : List Expense, legacyUpgrade (legacyUpgrade expenses) = legacyUpgrade expenses) ∧
    (∀ expenses : List Expense, (∀ e ∈ expenses, e.transactionId ≠ "") →
      legacyUpgrade expenses = expenses) := by
  constructor
  · intro expenses
    rw [legacyUpgrade, legacyUpgrade, List.map_map]
    apply List.map_congr_left
    intro e _
    simp only [Function.comp]
    by_cases h : e.transactionId = ""
    · simp only [migrateSplit, h, if_true, if_pos]
      by_cases hid : e.id = "" <;> simp [hid]
    · simp only [migrateSplit, if_neg h]
  · intro expenses h
    rw [legacyUpgrade]
    conv_rhs => rw [show expenses = expenses.map id from (List.map_id expenses).symm]
    apply List.map_congr_left
    intro e he
    rw [migrateSplit, if_neg (h e he), id]

/-- C10: the category cascade (used both by rename and by delete-to-"Other")
keeps the number of splits and relates the old and new ledgers pointwise:
every field except `category` is untouched, and `category` is rewritten to the
new name exactly on the splits that carried the old name (so a split of any
other category is entirely unchanged). -/
theorem reassignCategory_frame (old new : String) (l : List Expense) :
    (reassignCategory old new l).length = l.length ∧
    List.Forall₂ (fun e e' =>
      e'.id = e.id ∧ e'.transactionId = e.transactionId ∧ e'.amount = e.amount ∧
      e'.vendor = e.vendor ∧ e'.date = e.date ∧ e'.notes = e.notes ∧
      e'.category = (if e.category = old then new else e.category))
      l (reassignCategory old new l) := by
  refine ⟨by simp [reassignCategory], ?_⟩
  induction l with
  | nil => exact List.Forall₂.nil
  | cons e t ih =>
    refine List.Forall₂.cons ?_ ih
    by_cases h : e.category = old <;> simp [h]


/-- C6 counterexample: renaming "Food" to "Meals" succeeds, yet the split
whose category "food" equals the old name under case-insensitive comparison
is left untouched — it is not rewritten to "Meals", because the cascade
matches with the case-sensitive `===`. -/
theorem rename_cascade_case_sensitive_cex :
    (handleSaveRename
      [{ name := "Food", color := "#34D399", isDefault := true },
       { name := "Other", color := "#9CA3AF", isDefault := true }]
      [{ id := "1", transactionId := "1", amount := 5, vendor := "V",
         category := "food", date := 0, notes := none }]
      "Food" "Meals" "#123").map Prod.snd =
      some [{ id := "1", transactionId := "1", amount := 5, vendor := "V",
              category := "food", date := 0, notes := none }] ∧
    jsLower "food" = jsLower "Food" ∧ ("food" : String) ≠ "Meals" := by
  refine ⟨by decide, by decide, by decide⟩

/-- C6 (amended): on a successful rename whose new trimmed name differs from
the old name case-insensitively, exactly the splits whose category equals the
old name case-SENSITIVELY are rewritten to the new name, after which no split
carries the old name; a rename that changes the name only in case (or not at
all) runs no cascade and leaves every split unchanged. -/
theorem handleSaveRename_cascade (categories : List CategoryDefinition)
    (expenses : List Expense) (editingCatName formName formColor : String)
    (r : List CategoryDefinition × List Expense)
    (h : handleSaveRename categories expenses editingCatName formName formColor = some r) :
    (jsLower editingCatName ≠ jsLower (jsTrim formName) →
      r.2 = reassignCategory editingCatName (jsTrim formName) expenses ∧
      ∀ e ∈ r.2, e.category ≠ editingCatName) ∧
    (jsLower editingCatName = jsLower (jsTrim formName) → r.2 = expenses) := by
  unfold handleSaveRename at h
  split at h
  · exact Option.noConfusion h
  · replace h := (Option.some.inj h).symm
    constructor
    · intro hne
      have hold : editingCatName ≠ jsTrim formName := fun hEq => hne (hEq ▸ rfl)
      have hr2 : r.2 = reassignCategory editingCatName (jsTrim formName) expenses := by
        rw [h]
        exact if_pos hne
      refine ⟨hr2, ?_⟩
      intro e he
      rw [hr2] at he
      simp only [reassignCategory, List.mem_map] at he
      obtain ⟨a, -, rfl⟩ := he
      by_cases hc : a.category = editingCatName
      · rw [if_pos hc]
        exact fun hEq => hold hEq.symm
      · rw [if_neg hc]
        exact hc
    · intro heq
      rw [h]
      exact if_neg (fun hne => hne heq)

/-- C6 witness: renaming the custom category "A" to "B" succeeds, and the
cascade on the (empty) ledger behaves as stated. -/
theorem handleSaveRename_cascade_witness :
    (jsLower "A" ≠ jsLower (jsTrim "B") →
      ([] : List Expense) = reassignCategory "A" (jsTrim "B") [] ∧
      ∀ e ∈ ([] : List Expense), e.category ≠ "A") ∧
    (jsLower "A" = jsLower (jsTrim "B") → ([] : List Expense) = []) :=
  handleSaveRename_cascade [{ name := "A", color := "c", isDefault := false }] [] "A" "B" "d"
    ⟨[{ name := "B", color := "d", isDefault := false }], []⟩ (by decide)

/-- C7: the dashboard's today aggregation has no upper date bound, so a split
dated the calendar day AFTER the reference day (epoch day 19779 is 2024-02-26,
the reference day 19778 is 2024-02-25) is counted in full, while the spec's
same-UTC-day sum gives zero for that ledger. -/
theorem todaySpend_counts_future_split :
    todaySpendCode
      [{ id := "1", transactionId := "1", amount := 50, vendor := "V",
         category := "Food", date := 19779, notes := none }] 19778 = 50 ∧
    todaySpendSpec
      [{ id := "1", transactionId := "1", amount := 50, vendor := "V",
         category := "Food", date := 19779, notes := none }] 19778 = 0 := by
  constructor
  · show (if (19778 : Int) ≤ 19779 then (0 : ℚ) + 50 else 0) = 50
    norm_num
  · rfl
